import Mathlib

/-!
Verification of the Compound reconciliation module
(src/families/ethereum/modules/compound.js).

The JavaScript source is shallowly embedded: BigNumber values become exact
rationals (multiplication in bignumber.js is exact; the only rounding point,
BigNumber.integerValue() with no argument, uses the library default
ROUND_HALF_UP, modelled by roundHalfUp below), account/operation records
become structures, the ambient collaborators (currency registry, rate
oracle, COMPOUND feature flag, preloaded rate snapshot) become explicit
parameters, and code that can throw or reject returns Except.
-/

set_option autoImplicit false

deriving instance DecidableEq for Except

namespace Compound

/-- A token from the currency registry: id, decimal magnitude
(units[0].magnitude), contract address, and the optional id of the
underlying token this token is a compound derivative of (compoundFor). -/
structure TokenCurrency where
  id : String
  magnitude : Nat
  contractAddress : String
  compoundFor : Option String
deriving DecidableEq, Repr

/-- The base crypto currency; only its id is inspected by this module. -/
structure CryptoCurrency where
  id : String
deriving DecidableEq, Repr

/-- The extra metadata map of an operation.  The digestion step overwrites it
with the original compound-denominated value and the rate used (the rate is
stored as a string in the source; a BigNumber decimal string determines and
is determined by its rational value, so it is modelled by the rational). -/
inductive Extra where
  | emptyMeta : Extra
  | compoundMeta (compoundValue : Int) (rate : Rat) : Extra
deriving DecidableEq, Repr

/-- One historical balance-affecting event of an account.  Dates are
timestamps in seconds.  The operation type is an open set of strings. -/
structure Operation where
  id : String
  hash : String
  date : Nat
  type : String
  value : Int
  accountId : String
  extra : Extra
deriving DecidableEq, Repr

/-- A token (sub)account as consumed and produced by the module. -/
structure TokenAccount where
  id : String
  token : TokenCurrency
  parentId : String
  balance : Int
  spendableBalance : Int
  creationDate : Nat
  operationsCount : Nat
  operations : List Operation
  pendingOperations : List Operation
  starred : Bool
deriving DecidableEq, Repr

/-- The currency registry: getTokenById searches allTokens;
listTokensForCryptoCurrency(currency, withDelisted) for the single currency
this module acts on ("ethereum") is ethTokens. -/
structure Registry where
  allTokens : List TokenCurrency
  ethTokens : List TokenCurrency
deriving Repr

/-- Errors this module can propagate: a rejected oracle network call, or
getTokenById throwing on an unknown token id. -/
inductive DigestError where
  | network : DigestError
  | unknownToken (id : String) : DigestError
deriving DecidableEq, Repr

/-- getTokenById from the currencies registry: throws on an unknown id. -/
def getTokenById (reg : Registry) (tid : String) : Except DigestError TokenCurrency :=
  match reg.allTokens.find? (fun t => t.id == tid) with
  | some t => Except.ok t
  | none => Except.error (DigestError.unknownToken tid)

/-- One entry of the preloaded rate snapshot (CompoundPreloaded):
the current rate (a BigNumber stored as a decimal string, modelled by its
rational value) and the display supply APY string. -/
structure SnapEntry where
  rate : Rat
  supplyAPY : String
deriving DecidableEq, Repr

/-- The process-wide preloaded snapshot, keyed by derivative token id. -/
abbrev Snapshot := List (String × SnapEntry)

/-- getCTokenRate: the last snapshot rate for the token, or 0 if absent. -/
def getCTokenRate (snap : Snapshot) (ctoken : TokenCurrency) : Rat :=
  match snap.find? (fun p => p.1 == ctoken.id) with
  | some p => p.2.rate
  | none => 0

/-- getCTokenSupplyAPY: the snapshot APY string, or the empty string. -/
def getCTokenSupplyAPY (snap : Snapshot) (ctoken : TokenCurrency) : String :=
  match snap.find? (fun p => p.1 == ctoken.id) with
  | some p => p.2.supplyAPY
  | none => ""

/-- One cToken record of an oracle response body (data.cToken entries):
the contract address and the exchange_rate.value decimal. -/
structure CTokenEntry where
  tokenAddress : String
  exchangeRateValue : Rat
deriving DecidableEq, Repr

/-- The rate oracle (api.compound.finance): a call is determined by the
requested block_timestamp and address list; it either rejects (network or
parse failure) or resolves with a list of cToken records. -/
abbrev Oracle := Nat → List String → Except Unit (List CTokenEntry)

/-- Exact product of two rationals, as performed by BigNumber.times
(multiplication is exact in bignumber.js).  Stated via Rat.normalize so the
kernel can evaluate it; qmul_eq_mul below shows it is ordinary
multiplication on the rationals. -/
def qmul (a b : Rat) : Rat :=
  Rat.normalize (a.num * b.num) (a.den * b.den) (Nat.mul_ne_zero a.den_nz b.den_nz)

theorem qmul_eq_mul (a b : Rat) : qmul a b = a * b := (Rat.mul_def a b).symm

/-- BigNumber.integerValue() with the library default ROUND_HALF_UP:
round to the nearest integer, ties away from zero.  For a rational
num/den with den > 0 and num ≥ 0 this is floor((2 num + den)/(2 den)),
and the negative case mirrors it. -/
def roundHalfUp (q : Rat) : Int :=
  if 0 ≤ q.num then (2 * q.num + (q.den : Int)).fdiv (2 * (q.den : Int))
  else -((2 * (-q.num) + (q.den : Int)).fdiv (2 * (q.den : Int)))

/-- Truncation toward zero of a rational (the rounding the specification
describes): T-division of the numerator by the denominator. -/
def truncToZero (q : Rat) : Int := q.num.tdiv q.den

/-- BigNumber(10).pow on an integer exponent, as an exact rational
(the magnitude differences occurring in practice keep this exact). -/
def pow10 (z : Int) : Rat :=
  if 0 ≤ z then ((10 ^ z.toNat : Int) : Rat)
  else Rat.normalize 1 (10 ^ (-z).toNat) (Nat.pow_pos (by decide)).ne'

/-- promiseAllBatched: results in input order; a rejection rejects the
whole batch. -/
def mapExcept {ε α β : Type} (f : α → Except ε β) : List α → Except ε (List β)
  | [] => Except.ok []
  | a :: l =>
    match f a with
    | Except.error e => Except.error e
    | Except.ok b =>
      match mapExcept f l with
      | Except.error e => Except.error e
      | Except.ok bs => Except.ok (b :: bs)

/-- The result of one historical rate lookup. -/
structure HistoRate where
  token : TokenCurrency
  rate : Rat
deriving DecidableEq, Repr

/-- fetchHistoricalRates: one oracle call per date (batched 3 at a time in
the source, order preserving).  If the response has no record for the
token's contract address the rate falls back to 0; otherwise the raw
exchange rate is normalized by 10^(underlying magnitude - token magnitude),
the underlying token being resolved by getTokenById (which can throw). -/
def fetchHistoricalRates (reg : Registry) (oracle : Oracle)
    (token : TokenCurrency) (dates : List Nat) : Except DigestError (List HistoRate) :=
  mapExcept (fun date =>
    match oracle date [token.contractAddress] with
    | Except.error _ => Except.error DigestError.network
    | Except.ok data =>
      match data.find? (fun ct =>
          ct.tokenAddress.toLower == token.contractAddress.toLower) with
      | none => Except.ok { token := token, rate := 0 }
      | some ct =>
        match getTokenById reg (token.compoundFor.getD "") with
        | Except.error e => Except.error e
        | Except.ok otoken =>
          let rate := qmul ct.exchangeRateValue
            (pow10 ((otoken.magnitude : Int) - (token.magnitude : Int)))
          Except.ok { token := token, rate := rate })
    dates

/-- One value of the compoundByTokenId mapping built by
inferSubAccountsCompound. -/
structure PairEntry where
  tokenAccount : Option TokenAccount
  token : TokenCurrency
  ctoken : TokenCurrency
  ctokenAccount : Option TokenAccount
deriving DecidableEq, Repr

/-- compoundByTokenId, a JavaScript object keyed by underlying token id,
in insertion order. -/
abbrev PairMap := List (String × PairEntry)

/-- JavaScript object assignment: an existing key keeps its position and
gets the new value; a new key is appended. -/
def upsert (m : PairMap) (k : String) (v : PairEntry) : PairMap :=
  if m.any (fun p => p.1 == k) then
    m.map (fun p => if p.1 == k then (k, v) else p)
  else m ++ [(k, v)]

/-- JavaScript object property read. -/
def lookupPair (m : PairMap) (k : String) : Option PairEntry :=
  (m.find? (fun p => p.1 == k)).map (fun p => p.2)

/-- The loop body of inferSubAccountsCompound over the registry's token
list: for each compound token, find the underlying account (by token id)
and the derivative account (by token identity); record the pair when either
exists, resolving the underlying token via getTokenById (which can throw). -/
def inferAux (reg : Registry) (subAccounts : List TokenAccount) :
    List TokenCurrency → PairMap → Except DigestError PairMap
  | [], acc => Except.ok acc
  | ct :: rest, acc =>
    match ct.compoundFor with
    | none => inferAux reg subAccounts rest acc
    | some cf =>
      let tokenAccount := subAccounts.find? (fun a => a.token.id == cf)
      let ctokenAccount := subAccounts.find? (fun a => a.token == ct)
      if tokenAccount.isNone && ctokenAccount.isNone then
        inferAux reg subAccounts rest acc
      else
        match getTokenById reg cf with
        | Except.error e => Except.error e
        | Except.ok token =>
          inferAux reg subAccounts rest
            (upsert acc cf
              { tokenAccount := tokenAccount, token := token,
                ctoken := ct, ctokenAccount := ctokenAccount })

/-- inferSubAccountsCompound: build the pair mapping from the registry's
token list for the currency (withDelisted) and the given account list. -/
def inferSubAccountsCompound (reg : Registry) (subAccounts : List TokenAccount) :
    Except DigestError PairMap :=
  inferAux reg subAccounts reg.ethTokens []

/-- The environment of the module: the COMPOUND feature flag and the
current clock (new Date()) used for placeholder creation dates. -/
structure Env where
  compound : Bool
  now : Nat
deriving Repr

/-- The zero-balance placeholder account injected by prepareTokenAccounts. -/
def placeholderAccount (now : Nat) (ctoken : TokenCurrency) : TokenAccount :=
  { id := "empty_" ++ ctoken.id, token := ctoken, parentId := "",
    balance := 0, spendableBalance := 0, creationDate := now,
    operationsCount := 0, operations := [], pendingOperations := [],
    starred := false }

/-- prepareTokenAccounts: outside ethereum or with the flag off, the input
is returned as is.  Otherwise, for every inferred pair that has an
underlying account but no derivative account, a placeholder account is
appended; if no placeholder is needed the input list itself is returned. -/
def prepareTokenAccounts (env : Env) (reg : Registry) (currency : CryptoCurrency)
    (subAccounts : List TokenAccount) : Except DigestError (List TokenAccount) :=
  if currency.id != "ethereum" || !env.compound then Except.ok subAccounts
  else
    match inferSubAccountsCompound reg subAccounts with
    | Except.error e => Except.error e
    | Except.ok m =>
      let implicitCTokenAccounts := m.filterMap (fun p =>
        if p.2.tokenAccount.isSome && p.2.ctokenAccount.isNone then
          some (placeholderAccount env.now p.2.ctoken)
        else none)
      if implicitCTokenAccounts.isEmpty then Except.ok subAccounts
      else Except.ok (subAccounts ++ implicitCTokenAccounts)

/-- cdaiToDaiOpMapping: the closed operation type remapping; any type not
in the table maps to none (undefined lookup, the operation is dropped). -/
def cdaiToDaiOpMapping : String → Option String
  | "IN" => some "SUPPLY"
  | "OUT" => some "REDEEM"
  | _ => none

/-- Modelled from the spec: insertion step of the date-descending re-sort
of merged operation lists (mergeOps lives in bridge/jsHelpers, outside the
given source). -/
def insertByDateDesc (o : Operation) : List Operation → List Operation
  | [] => [o]
  | x :: xs => if x.date < o.date then o :: x :: xs else x :: insertByDateDesc o xs

/-- Modelled from the spec: date-descending re-sort of a merged operation
list. -/
def sortByDateDesc (l : List Operation) : List Operation :=
  l.foldr insertByDateDesc []

/-- Modelled from the spec: mergeOps (from bridge/jsHelpers, not in the
given source) is the id-keyed union of the existing operations and the
newly remapped ones, re-sorted by date descending. -/
def mergeOps (existing incoming : List Operation) : List Operation :=
  sortByDateDesc
    (incoming ++ existing.filter (fun o => incoming.all (fun n => n.id != o.id)))

/-- The remapping of a derivative account's operations into the underlying
account's domain: each operation is paired with its historical rate; the
converted value is value × rate rounded by BigNumber.integerValue()
(ROUND_HALF_UP); types are remapped through cdaiToDaiOpMapping and
unmapped types are dropped; the new id is target account id + "-" +
original hash + "-" + mapped type; date and hash carry over; extra records
the original compound value and the rate. -/
def remapOps (aId : String) (pairs : List (Operation × Rat)) : List Operation :=
  pairs.filterMap (fun p =>
    let value := roundHalfUp (qmul (p.1.value : Rat) p.2)
    match cdaiToDaiOpMapping p.1.type with
    | none => none
    | some ty =>
      some { p.1 with
        id := aId ++ "-" ++ p.1.hash ++ "-" ++ ty,
        type := ty, value := value, accountId := aId,
        extra := Extra.compoundMeta p.1.value p.2 })

/-- The per-account body of digestTokenAccounts' batched map.  Returns
ok none for a dropped account, ok (some b) for a kept (possibly merged)
account, error when an oracle call rejects or getTokenById throws. -/
def digestOne (reg : Registry) (snap : Snapshot) (oracle : Oracle)
    (m : PairMap) (a : TokenAccount) : Except DigestError (Option TokenAccount) :=
  match a.token.compoundFor with
  | some cf =>
    if (lookupPair m cf).isSome then Except.ok none
    else Except.ok (some a)
  | none =>
    match lookupPair m a.token.id with
    | some mc =>
      match mc.ctokenAccount with
      | some cacc =>
        let latestRate := getCTokenRate snap mc.ctoken
        let balance := a.balance +
          roundHalfUp (qmul (cacc.balance : Rat) latestRate)
        match fetchHistoricalRates reg oracle mc.ctoken
            (cacc.operations.map (fun op => op.date)) with
        | Except.error e => Except.error e
        | Except.ok rates =>
          let newOps := remapOps a.id
            (cacc.operations.zip (rates.map (fun r => r.rate)))
          Except.ok (some { a with
            spendableBalance := a.balance,
            balance := balance,
            operations := mergeOps a.operations newOps })
      | none => Except.ok (some a)
    | none => Except.ok (some a)

/-- digestTokenAccounts: outside ethereum or with the flag off, the input
is returned as is; likewise when the inferred pair mapping is empty.
Otherwise every account is processed by digestOne (batched 2 at a time in
the source, order preserving) and dropped accounts are filtered out. -/
def digestTokenAccounts (env : Env) (reg : Registry) (snap : Snapshot)
    (oracle : Oracle) (currency : CryptoCurrency)
    (subAccounts : List TokenAccount) : Except DigestError (List TokenAccount) :=
  if currency.id != "ethereum" || !env.compound then Except.ok subAccounts
  else
    match inferSubAccountsCompound reg subAccounts with
    | Except.error e => Except.error e
    | Except.ok m =>
      if m.isEmpty then Except.ok subAccounts
      else
        match mapExcept (digestOne reg snap oracle m) subAccounts with
        | Except.error e => Except.error e
        | Except.ok all => Except.ok (all.filterMap id)

/-! ### Helper lemmas -/

theorem roundHalfUp_nonneg {q : Rat} (h : 0 ≤ q) : 0 ≤ roundHalfUp q := by
  have hn : 0 ≤ q.num := Rat.num_nonneg.mpr h
  unfold roundHalfUp
  rw [if_pos hn]
  refine Int.fdiv_nonneg ?_ ?_
  · have hd : (0 : Int) ≤ (q.den : Int) := Int.natCast_nonneg q.den
    omega
  · have hd : (0 : Int) ≤ (q.den : Int) := Int.natCast_nonneg q.den
    omega

theorem lookupPair_nil (k : String) : lookupPair [] k = none := rfl

theorem lookupPair_upsert_self (m : PairMap) (k : String) (v : PairEntry) :
    lookupPair (upsert m k v) k = some v := by
  unfold upsert
  by_cases hany : m.any (fun p => p.1 == k)
  · rw [if_pos hany]
    induction m with
    | nil => simp at hany
    | cons p m ih =>
      by_cases hp : p.1 == k
      · simp [lookupPair, List.find?, hp]
      · have hany' : m.any (fun p => p.1 == k) := by
          simp only [List.any_cons, hp, Bool.false_or] at hany
          exact hany
        have := ih hany'
        simpa [lookupPair, List.find?, hp] using this
  · rw [if_neg hany]
    have hnone : m.find? (fun p => p.1 == k) = none := by
      rw [List.find?_eq_none]
      intro p hp hpk
      exact hany (List.any_eq_true.mpr ⟨p, hp, hpk⟩)
    unfold lookupPair
    rw [List.find?_append, hnone]
    simp [List.find?]

theorem lookupPair_upsert_of_ne (m : PairMap) (k k' : String) (v : PairEntry)
    (h : k' ≠ k) : lookupPair (upsert m k v) k' = lookupPair m k' := by
  unfold upsert
  by_cases hany : m.any (fun p => p.1 == k)
  · rw [if_pos hany]
    clear hany
    induction m with
    | nil => rfl
    | cons p m ih =>
      by_cases hp : p.1 == k
      · have hp' : p.1 = k := by simpa using hp
        have hk' : ((k : String) == k') = false :=
          beq_eq_false_iff_ne.mpr (fun hc => h hc.symm)
        have hpk' : (p.1 == k') = false := by
          rw [hp']
          exact hk'
        simp [lookupPair, List.find?, hp, hk', hpk'] at ih ⊢
        exact ih
      · by_cases hpk' : p.1 == k'
        · simp [lookupPair, List.find?, hp, hpk']
        · simp [lookupPair, List.find?, hp, hpk'] at ih ⊢
          exact ih
  · rw [if_neg hany]
    unfold lookupPair
    rw [List.find?_append]
    have hkk : ((k : String) == k') = false :=
      beq_eq_false_iff_ne.mpr (fun hc => h hc.symm)
    have h1 : List.find? (fun p => p.1 == k') [(k, v)] = none := by
      simp [List.find?, hkk]
    rw [h1]
    cases m.find? (fun p => p.1 == k') <;> rfl

theorem lookupPair_upsert_isSome (m : PairMap) (k k' : String) (v : PairEntry)
    (h : (lookupPair m k').isSome) : (lookupPair (upsert m k v) k').isSome := by
  by_cases hk : k' = k
  · subst hk
    rw [lookupPair_upsert_self]
    rfl
  · rw [lookupPair_upsert_of_ne m k k' v hk]
    exact h

theorem mem_insertByDateDesc {o x : Operation} {l : List Operation}
    (h : x ∈ insertByDateDesc o l) : x = o ∨ x ∈ l := by
  induction l with
  | nil => simpa [insertByDateDesc] using h
  | cons y ys ih =>
    unfold insertByDateDesc at h
    by_cases hd : y.date < o.date
    · rw [if_pos hd] at h
      rcases List.mem_cons.mp h with h' | h'
      · exact Or.inl h'
      · exact Or.inr h'
    · rw [if_neg hd] at h
      rcases List.mem_cons.mp h with h' | h'
      · subst h'
        exact Or.inr (List.mem_cons_self _ _)
      · rcases ih h' with h'' | h''
        · exact Or.inl h''
        · exact Or.inr (List.mem_cons_of_mem _ h'')

theorem mem_sortByDateDesc {x : Operation} : ∀ {l : List Operation},
    x ∈ sortByDateDesc l → x ∈ l := by
  intro l
  induction l with
  | nil => intro h; simp [sortByDateDesc] at h
  | cons y ys ih =>
    intro h
    have h' : x ∈ insertByDateDesc y (sortByDateDesc ys) := h
    rcases mem_insertByDateDesc h' with h'' | h''
    · subst h''
      exact List.mem_cons_self _ _
    · exact List.mem_cons_of_mem _ (ih h'')

/-- Every operation of a merged list comes from the existing list or from
the incoming (remapped) list. -/
theorem mem_mergeOps {x : Operation} {existing incoming : List Operation}
    (h : x ∈ mergeOps existing incoming) : x ∈ existing ∨ x ∈ incoming := by
  unfold mergeOps at h
  have h' := mem_sortByDateDesc h
  rcases List.mem_append.mp h' with h'' | h''
  · exact Or.inr h''
  · exact Or.inl (List.mem_of_mem_filter h'')

/-- The closed remapping table sends only IN and OUT somewhere. -/
theorem cdaiToDaiOpMapping_eq_some {t ty : String}
    (h : cdaiToDaiOpMapping t = some ty) :
    (t = "IN" ∧ ty = "SUPPLY") ∨ (t = "OUT" ∧ ty = "REDEEM") := by
  unfold cdaiToDaiOpMapping at h
  split at h
  · exact Or.inl ⟨rfl, (Option.some_inj.mp h).symm⟩
  · exact Or.inr ⟨rfl, (Option.some_inj.mp h).symm⟩
  · exact absurd h (by simp)

/-- Full characterization of an operation produced by the remap stage. -/
theorem remapOps_spec {aId : String} {prs : List (Operation × Rat)} {o : Operation}
    (ho : o ∈ remapOps aId prs) :
    ∃ p, p ∈ prs ∧ cdaiToDaiOpMapping p.1.type = some o.type ∧
      o.value = roundHalfUp (qmul (p.1.value : Rat) p.2) ∧
      o.id = aId ++ "-" ++ p.1.hash ++ "-" ++ o.type ∧
      o.hash = p.1.hash ∧ o.date = p.1.date ∧ o.accountId = aId ∧
      o.extra = Extra.compoundMeta p.1.value p.2 := by
  unfold remapOps at ho
  rcases List.mem_filterMap.mp ho with ⟨p, hp, hsome⟩
  refine ⟨p, hp, ?_⟩
  cases hmap : cdaiToDaiOpMapping p.1.type with
  | none => rw [hmap] at hsome; exact absurd hsome (by simp)
  | some ty =>
    rw [hmap] at hsome
    cases hsome
    exact ⟨rfl, rfl, rfl, rfl, rfl, rfl, rfl⟩

theorem mapExcept_ok_mem {ε α β : Type} (f : α → Except ε β) :
    ∀ (l : List α) (rs : List β), mapExcept f l = Except.ok rs →
      ∀ r ∈ rs, ∃ a ∈ l, f a = Except.ok r := by
  intro l
  induction l with
  | nil =>
    intro rs h r hr
    unfold mapExcept at h
    cases h
    simp at hr
  | cons a l ih =>
    intro rs h r hr
    unfold mapExcept at h
    cases hfa : f a with
    | error e => rw [hfa] at h; cases h
    | ok b =>
      rw [hfa] at h
      cases hml : mapExcept f l with
      | error e => rw [hml] at h; cases h
      | ok bs =>
        rw [hml] at h
        cases h
        rcases List.mem_cons.mp hr with hr' | hr'
        · exact ⟨a, List.mem_cons_self _ _, by rw [hfa, hr']⟩
        · rcases ih bs hml r hr' with ⟨a', ha', hfa'⟩
          exact ⟨a', List.mem_cons_of_mem _ ha', hfa'⟩

theorem mapExcept_ok_of_forall {ε α : Type} (f : α → Except ε (Option α)) :
    ∀ (l : List α), (∀ a ∈ l, f a = Except.ok (some a)) →
      mapExcept f l = Except.ok (l.map some) := by
  intro l
  induction l with
  | nil => intro _; rfl
  | cons a l ih =>
    intro h
    unfold mapExcept
    rw [h a (List.mem_cons_self _ _), ih (fun b hb => h b (List.mem_cons_of_mem _ hb))]
    rfl

/-! ### Inference invariants -/

/-- Soundness of an inferred pair mapping with respect to the registry and
the account list it was built from: every recorded entry stores exactly the
finds the source performs, belongs to a registered compound token, and has
at least one account present; its underlying token resolved. -/
def PairMapSound (reg : Registry) (x : List TokenAccount) (m : PairMap) : Prop :=
  ∀ k e, lookupPair m k = some e →
    e.ctoken ∈ reg.ethTokens ∧
    e.ctoken.compoundFor = some k ∧
    e.tokenAccount = x.find? (fun a => a.token.id == k) ∧
    e.ctokenAccount = x.find? (fun a => a.token == e.ctoken) ∧
    (e.tokenAccount.isSome ∨ e.ctokenAccount.isSome) ∧
    getTokenById reg k = Except.ok e.token

theorem inferAux_sound (reg : Registry) (x : List TokenAccount) :
    ∀ (ts : List TokenCurrency) (acc m : PairMap),
      (∀ ct ∈ ts, ct ∈ reg.ethTokens) → PairMapSound reg x acc →
      inferAux reg x ts acc = Except.ok m → PairMapSound reg x m := by
  intro ts
  induction ts with
  | nil =>
    intro acc m _ hacc h
    simp only [inferAux] at h
    cases h
    exact hacc
  | cons ct rest ih =>
    intro acc m hts hacc h
    have hct : ct ∈ reg.ethTokens := hts ct (List.mem_cons_self _ _)
    have hts' : ∀ c ∈ rest, c ∈ reg.ethTokens :=
      fun c hc => hts c (List.mem_cons_of_mem _ hc)
    simp only [inferAux] at h
    cases hcf : ct.compoundFor with
    | none =>
      rw [hcf] at h
      exact ih acc m hts' hacc h
    | some cf =>
      rw [hcf] at h
      simp only [] at h
      by_cases hb : ((x.find? fun a => a.token.id == cf).isNone &&
          (x.find? fun a => a.token == ct).isNone) = true
      · rw [if_pos hb] at h
        exact ih acc m hts' hacc h
      · rw [if_neg hb] at h
        cases hg : getTokenById reg cf with
        | error e =>
          rw [hg] at h
          cases h
        | ok token =>
          rw [hg] at h
          refine ih _ m hts' ?_ h
          intro k e hk
          by_cases hkk : k = cf
          · subst hkk
            rw [lookupPair_upsert_self] at hk
            cases hk
            refine ⟨hct, hcf, rfl, rfl, ?_, hg⟩
            by_cases h1 : (x.find? fun a => a.token.id == k) = none
            · have h2 : (x.find? fun a => a.token == ct) ≠ none := by
                intro h2
                exact hb (by simp [h1, h2])
              exact Or.inr (Option.ne_none_iff_isSome.mp h2)
            · exact Or.inl (Option.ne_none_iff_isSome.mp h1)
          · rw [lookupPair_upsert_of_ne _ _ _ _ hkk] at hk
            exact hacc k e hk

theorem inferAux_keys_mono (reg : Registry) (x : List TokenAccount) :
    ∀ (ts : List TokenCurrency) (acc m : PairMap) (k : String),
      inferAux reg x ts acc = Except.ok m →
      (lookupPair acc k).isSome → (lookupPair m k).isSome := by
  intro ts
  induction ts with
  | nil =>
    intro acc m k h hk
    simp only [inferAux] at h
    cases h
    exact hk
  | cons ct rest ih =>
    intro acc m k h hk
    simp only [inferAux] at h
    cases hcf : ct.compoundFor with
    | none =>
      rw [hcf] at h
      exact ih acc m k h hk
    | some cf =>
      rw [hcf] at h
      simp only [] at h
      by_cases hb : ((x.find? fun a => a.token.id == cf).isNone &&
          (x.find? fun a => a.token == ct).isNone) = true
      · rw [if_pos hb] at h
        exact ih acc m k h hk
      · rw [if_neg hb] at h
        cases hg : getTokenById reg cf with
        | error e =>
          rw [hg] at h
          cases h
        | ok token =>
          rw [hg] at h
          exact ih _ m k h (lookupPair_upsert_isSome acc cf k _ hk)

theorem inferAux_complete (reg : Registry) (x : List TokenAccount) :
    ∀ (ts : List TokenCurrency) (acc m : PairMap),
      inferAux reg x ts acc = Except.ok m →
      ∀ ct ∈ ts, ∀ cf, ct.compoundFor = some cf →
        ((x.find? (fun a => a.token.id == cf)).isSome ∨
          (x.find? (fun a => a.token == ct)).isSome) →
        (lookupPair m cf).isSome := by
  intro ts
  induction ts with
  | nil =>
    intro acc m h ct hct
    simp at hct
  | cons ct0 rest ih =>
    intro acc m h ct hct cf hcf hfind
    simp only [inferAux] at h
    rcases List.mem_cons.mp hct with hct' | hct'
    · subst hct'
      rw [hcf] at h
      simp only [] at h
      have hb : ¬(((x.find? fun a => a.token.id == cf).isNone &&
          (x.find? fun a => a.token == ct).isNone) = true) := by
        intro hc
        rw [Bool.and_eq_true, Option.isNone_iff_eq_none, Option.isNone_iff_eq_none] at hc
        rcases hfind with h1 | h1
        · rw [hc.1] at h1
          cases h1
        · rw [hc.2] at h1
          cases h1
      rw [if_neg hb] at h
      cases hg : getTokenById reg cf with
      | error e =>
        rw [hg] at h
        cases h
      | ok token =>
        rw [hg] at h
        refine inferAux_keys_mono reg x rest _ m cf h ?_
        rw [lookupPair_upsert_self]
        rfl
    · cases hcf0 : ct0.compoundFor with
      | none =>
        rw [hcf0] at h
        exact ih acc m h ct hct' cf hcf hfind
      | some cf0 =>
        rw [hcf0] at h
        simp only [] at h
        by_cases hb : ((x.find? fun a => a.token.id == cf0).isNone &&
            (x.find? fun a => a.token == ct0).isNone) = true
        · rw [if_pos hb] at h
          exact ih acc m h ct hct' cf hcf hfind
        · rw [if_neg hb] at h
          cases hg : getTokenById reg cf0 with
          | error e =>
            rw [hg] at h
            cases h
          | ok token =>
            rw [hg] at h
            exact ih _ m h ct hct' cf hcf hfind

theorem inferAux_getTok (reg : Registry) (x : List TokenAccount) :
    ∀ (ts : List TokenCurrency) (acc m : PairMap),
      inferAux reg x ts acc = Except.ok m →
      ∀ ct ∈ ts, ∀ cf, ct.compoundFor = some cf →
        ((x.find? (fun a => a.token.id == cf)).isSome ∨
          (x.find? (fun a => a.token == ct)).isSome) →
        ∃ t, getTokenById reg cf = Except.ok t := by
  intro ts
  induction ts with
  | nil =>
    intro acc m h ct hct
    simp at hct
  | cons ct0 rest ih =>
    intro acc m h ct hct cf hcf hfind
    simp only [inferAux] at h
    rcases List.mem_cons.mp hct with hct' | hct'
    · subst hct'
      rw [hcf] at h
      simp only [] at h
      have hb : ¬(((x.find? fun a => a.token.id == cf).isNone &&
          (x.find? fun a => a.token == ct).isNone) = true) := by
        intro hc
        rw [Bool.and_eq_true, Option.isNone_iff_eq_none, Option.isNone_iff_eq_none] at hc
        rcases hfind with h1 | h1
        · rw [hc.1] at h1
          cases h1
        · rw [hc.2] at h1
          cases h1
      rw [if_neg hb] at h
      cases hg : getTokenById reg cf with
      | error e =>
        rw [hg] at h
        cases h
      | ok token => exact ⟨token, rfl⟩
    · cases hcf0 : ct0.compoundFor with
      | none =>
        rw [hcf0] at h
        exact ih acc m h ct hct' cf hcf hfind
      | some cf0 =>
        rw [hcf0] at h
        simp only [] at h
        by_cases hb : ((x.find? fun a => a.token.id == cf0).isNone &&
            (x.find? fun a => a.token == ct0).isNone) = true
        · rw [if_pos hb] at h
          exact ih acc m h ct hct' cf hcf hfind
        · rw [if_neg hb] at h
          cases hg : getTokenById reg cf0 with
          | error e =>
            rw [hg] at h
            cases h
          | ok token =>
            rw [hg] at h
            exact ih _ m h ct hct' cf hcf hfind

theorem inferAux_ok_exists (reg : Registry) (y : List TokenAccount) :
    ∀ (ts : List TokenCurrency) (acc : PairMap),
      (∀ ct ∈ ts, ∀ cf, ct.compoundFor = some cf →
        ((y.find? (fun a => a.token.id == cf)).isSome ∨
          (y.find? (fun a => a.token == ct)).isSome) →
        ∃ t, getTokenById reg cf = Except.ok t) →
      ∃ m, inferAux reg y ts acc = Except.ok m := by
  intro ts
  induction ts with
  | nil =>
    intro acc _
    exact ⟨acc, rfl⟩
  | cons ct rest ih =>
    intro acc hyp
    have hyp' : ∀ c ∈ rest, ∀ cf, c.compoundFor = some cf →
        ((y.find? (fun a => a.token.id == cf)).isSome ∨
          (y.find? (fun a => a.token == c)).isSome) →
        ∃ t, getTokenById reg cf = Except.ok t :=
      fun c hc => hyp c (List.mem_cons_of_mem _ hc)
    simp only [inferAux]
    cases hcf : ct.compoundFor with
    | none => exact ih acc hyp'
    | some cf =>
      simp only []
      by_cases hb : ((y.find? fun a => a.token.id == cf).isNone &&
          (y.find? fun a => a.token == ct).isNone) = true
      · rw [if_pos hb]
        exact ih acc hyp'
      · rw [if_neg hb]
        have hfind : ((y.find? (fun a => a.token.id == cf)).isSome ∨
            (y.find? (fun a => a.token == ct)).isSome) := by
          by_cases h1 : (y.find? fun a => a.token.id == cf) = none
          · have h2 : (y.find? fun a => a.token == ct) ≠ none := by
              intro h2
              exact hb (by simp [h1, h2])
            exact Or.inr (Option.ne_none_iff_isSome.mp h2)
          · exact Or.inl (Option.ne_none_iff_isSome.mp h1)
        rcases hyp ct (List.mem_cons_self _ _) cf hcf hfind with ⟨t, ht⟩
        rw [ht]
        exact ih _ hyp'

/-! ### digestOne case analysis -/

theorem digestOne_token_eq {reg : Registry} {snap : Snapshot} {oracle : Oracle}
    {m : PairMap} {a b : TokenAccount}
    (h : digestOne reg snap oracle m a = Except.ok (some b)) : b.token = a.token := by
  simp only [digestOne] at h
  split at h
  · split at h
    · simp at h
    · cases h
      rfl
  · split at h
    · split at h
      · split at h
        · cases h
        · cases h
          rfl
      · cases h
        rfl
    · cases h
      rfl

theorem digestOne_derivative {reg : Registry} {snap : Snapshot} {oracle : Oracle}
    {m : PairMap} {a b : TokenAccount} {cf : String}
    (h : digestOne reg snap oracle m a = Except.ok (some b))
    (hcf : a.token.compoundFor = some cf) :
    lookupPair m cf = none ∧ b = a := by
  simp only [digestOne] at h
  split at h
  · next cf' heq =>
    rw [hcf] at heq
    cases heq
    split at h
    · next hl =>
      simp at h
    · next hl =>
      cases h
      exact ⟨Option.not_isSome_iff_eq_none.mp hl, rfl⟩
  · next heq =>
    rw [hcf] at heq
    cases heq

theorem digestOne_pass_derivative {reg : Registry} {snap : Snapshot} {oracle : Oracle}
    {m : PairMap} {a : TokenAccount} {cf : String}
    (hcf : a.token.compoundFor = some cf) (hl : lookupPair m cf = none) :
    digestOne reg snap oracle m a = Except.ok (some a) := by
  simp only [digestOne, hcf, hl]
  rfl

theorem digestOne_pass_plain {reg : Registry} {snap : Snapshot} {oracle : Oracle}
    {m : PairMap} {a : TokenAccount}
    (hcf : a.token.compoundFor = none)
    (h : lookupPair m a.token.id = none ∨
      ∃ mc, lookupPair m a.token.id = some mc ∧ mc.ctokenAccount = none) :
    digestOne reg snap oracle m a = Except.ok (some a) := by
  rcases h with hl | ⟨mc, hl, hca⟩
  · simp only [digestOne, hcf, hl]
  · simp only [digestOne, hcf, hl, hca]

/-- The merge branch of digestOne, fully characterized. -/
theorem digestOne_merge {reg : Registry} {snap : Snapshot} {oracle : Oracle}
    {m : PairMap} {a : TokenAccount} {mc : PairEntry} {cacc : TokenAccount}
    {rates : List HistoRate}
    (hcf : a.token.compoundFor = none)
    (hl : lookupPair m a.token.id = some mc)
    (hca : mc.ctokenAccount = some cacc)
    (hf : fetchHistoricalRates reg oracle mc.ctoken
      (cacc.operations.map fun op => op.date) = Except.ok rates) :
    digestOne reg snap oracle m a = Except.ok (some { a with
      spendableBalance := a.balance,
      balance := a.balance +
        roundHalfUp (qmul (cacc.balance : Rat) (getCTokenRate snap mc.ctoken)),
      operations := mergeOps a.operations
        (remapOps a.id (cacc.operations.zip (rates.map (fun r => r.rate)))) }) := by
  simp only [digestOne, hcf, hl, hca, hf]

theorem guard_true_of {currency : CryptoCurrency} {env : Env}
    (h : currency.id ≠ "ethereum" ∨ env.compound = false) :
    (currency.id != "ethereum" || !env.compound) = true := by
  rcases h with h | h
  · rw [Bool.or_eq_true]
    exact Or.inl (bne_iff_ne.mpr h)
  · rw [Bool.or_eq_true, h]
    exact Or.inr rfl

/-! ### The merge branch, characterized -/

theorem digestOne_merge_exists {reg : Registry} {snap : Snapshot} {oracle : Oracle}
    {m : PairMap} {a b : TokenAccount} {mc : PairEntry} {cacc : TokenAccount}
    (hcf : a.token.compoundFor = none)
    (hl : lookupPair m a.token.id = some mc)
    (hca : mc.ctokenAccount = some cacc)
    (hdig : digestOne reg snap oracle m a = Except.ok (some b)) :
    ∃ rates, fetchHistoricalRates reg oracle mc.ctoken
        (cacc.operations.map fun op => op.date) = Except.ok rates ∧
      b = { a with
        spendableBalance := a.balance,
        balance := a.balance +
          roundHalfUp (qmul (cacc.balance : Rat) (getCTokenRate snap mc.ctoken)),
        operations := mergeOps a.operations
          (remapOps a.id (cacc.operations.zip (rates.map (fun r => r.rate)))) } := by
  simp only [digestOne, hcf, hl, hca] at hdig
  cases hf : fetchHistoricalRates reg oracle mc.ctoken
      (cacc.operations.map fun op => op.date) with
  | error e =>
    rw [hf] at hdig
    cases hdig
  | ok rates =>
    rw [hf] at hdig
    cases hdig
    exact ⟨rates, rfl, rfl⟩

/-! ### Concrete instances used by witnesses and counterexamples -/

def daiTok : TokenCurrency :=
  { id := "dai", magnitude := 18, contractAddress := "0xdai", compoundFor := none }

def cdaiTok : TokenCurrency :=
  { id := "cdai", magnitude := 8, contractAddress := "0xcdai", compoundFor := some "dai" }

def regW : Registry := { allTokens := [daiTok, cdaiTok], ethTokens := [daiTok, cdaiTok] }

def ethCur : CryptoCurrency := { id := "ethereum" }

def btcCur : CryptoCurrency := { id := "bitcoin" }

def envOn : Env := { compound := true, now := 7 }

def daiAccW : TokenAccount :=
  { id := "dacc", token := daiTok, parentId := "p", balance := 100, spendableBalance := 90,
    creationDate := 1, operationsCount := 0, operations := [], pendingOperations := [],
    starred := false }

def cdaiAccW : TokenAccount :=
  { id := "cacc", token := cdaiTok, parentId := "p", balance := 7, spendableBalance := 7,
    creationDate := 2, operationsCount := 0, operations := [], pendingOperations := [],
    starred := false }

def opInW : Operation :=
  { id := "o1", hash := "h1", date := 5, type := "IN", value := 3, accountId := "cacc",
    extra := Extra.emptyMeta }

def opOutW : Operation :=
  { id := "o2", hash := "h2", date := 6, type := "OUT", value := 2, accountId := "cacc",
    extra := Extra.emptyMeta }

def opOtherW : Operation :=
  { id := "o3", hash := "h3", date := 8, type := "FEES", value := 1, accountId := "cacc",
    extra := Extra.emptyMeta }

def cdaiOpAccW : TokenAccount := { cdaiAccW with operations := [opInW] }

def snapW : Snapshot := [("cdai", { rate := 2, supplyAPY := "1.23%" })]

def snapHalf : Snapshot := [("cdai", { rate := mkRat 1 2, supplyAPY := "" })]

def oracleEmptyW : Oracle := fun _ _ => Except.ok []

def oracleFailW : Oracle := fun _ _ => Except.error ()

def cdaiOneW : TokenAccount := { cdaiAccW with balance := 1 }

def pairW : PairEntry :=
  { tokenAccount := some daiAccW, token := daiTok, ctoken := cdaiTok,
    ctokenAccount := some cdaiAccW }

def mW : PairMap := [("dai", pairW)]

def prsW : List (Operation × Rat) := [(opInW, 2), (opOutW, 3), (opOtherW, 5)]

def mergedW : TokenAccount := { daiAccW with spendableBalance := 100, balance := 114 }

def oSupW : Operation :=
  { id := "dacc-h1-SUPPLY", hash := "h1", date := 5, type := "SUPPLY", value := 6,
    accountId := "dacc", extra := Extra.compoundMeta 3 2 }

/-! ### Claim theorems -/

/-- C1: the claim states that a derivative account whose pair has no
underlying account is passed through unchanged.  On the code, the drop
check tests existence of the pair entry, which is recorded as soon as the
derivative account itself is found; so a lone cdai account (its token a
registered derivative, no dai account in the list) is silently dropped and
digestion returns the empty list. -/
theorem digest_drops_lone_derivative_account :
    cdaiAccW.token.compoundFor = some "dai" ∧
    (∀ a ∈ ([cdaiAccW] : List TokenAccount), a.token.id ≠ "dai") ∧
    digestTokenAccounts envOn regW snapW oracleEmptyW ethCur [cdaiAccW] =
      Except.ok [] := by
  refine ⟨rfl, ?_, by decide⟩
  intro a ha
  rcases List.mem_cons.mp ha with h | h
  · subst h
    decide
  · simp at h

/-- C2 counterexample: an oracle network failure is not caught anywhere in
the module: digesting a pair whose derivative account has one operation
with a rejecting oracle rejects the whole digestion with a network error,
instead of substituting a zero rate. -/
theorem digest_error_on_oracle_failure :
    digestTokenAccounts envOn regW snapW oracleFailW ethCur [daiAccW, cdaiOpAccW] =
      Except.error DigestError.network := by decide

/-- C2 (amended): only the token-absent case is recovered: when every
oracle call resolves but the response has no record for the requested
token, the rate-fetching layer substitutes a zero rate for every date and
succeeds; a network failure, by contrast, propagates (see the
counterexample). -/
theorem fetchHistoricalRates_absent_token_zero
    (reg : Registry) (oracle : Oracle) (token : TokenCurrency) (dates : List Nat)
    (h : ∀ d ∈ dates, ∃ resp, oracle d [token.contractAddress] = Except.ok resp ∧
      resp.find? (fun ct =>
        ct.tokenAddress.toLower == token.contractAddress.toLower) = none) :
    fetchHistoricalRates reg oracle token dates =
      Except.ok (dates.map (fun _ => { token := token, rate := 0 })) := by
  unfold fetchHistoricalRates
  induction dates with
  | nil => rfl
  | cons d ds ih =>
    rcases h d (List.mem_cons_self _ _) with ⟨resp, hok, hfind⟩
    simp only [mapExcept, hok, hfind, List.map]
    rw [ih (fun d' hd' => h d' (List.mem_cons_of_mem _ hd'))]

theorem fetchHistoricalRates_absent_token_zero_witness :
    fetchHistoricalRates regW oracleEmptyW cdaiTok [5, 9] =
      Except.ok [{ token := cdaiTok, rate := 0 }, { token := cdaiTok, rate := 0 }] :=
  fetchHistoricalRates_absent_token_zero regW oracleEmptyW cdaiTok [5, 9]
    (fun _ _ => ⟨[], rfl, rfl⟩)

/-- C3 counterexample: with current rate 1/2 and derivative balance 1,
the merged balance is 100 + 1 (ROUND_HALF_UP of 1/2 is 1), while the
claim's formula U + trunc(D × R) gives 100 + 0. -/
theorem digest_rounds_half_up_not_trunc :
    digestTokenAccounts envOn regW snapHalf oracleEmptyW ethCur [daiAccW, cdaiOneW] =
      Except.ok [{ daiAccW with spendableBalance := 100, balance := 101 }] ∧
    daiAccW.balance + truncToZero (qmul (cdaiOneW.balance : Rat)
      (getCTokenRate snapHalf cdaiTok)) = 100 ∧
    (101 : Int) ≠ 100 := by decide

/-- C3 (amended): fractional results of rate multiplication are rounded by
BigNumber.integerValue() under the default ROUND_HALF_UP (nearest integer,
ties away from zero), not truncated toward zero: the merged balance is
U + roundHalfUp(D × R), and each remapped operation's value is
roundHalfUp(original value × historical rate). -/
theorem digest_merge_rounding {reg : Registry} {snap : Snapshot} {oracle : Oracle}
    {m : PairMap} {a b : TokenAccount} {mc : PairEntry} {cacc : TokenAccount}
    {rates : List HistoRate}
    (hcf : a.token.compoundFor = none)
    (hl : lookupPair m a.token.id = some mc)
    (hca : mc.ctokenAccount = some cacc)
    (hf : fetchHistoricalRates reg oracle mc.ctoken
      (cacc.operations.map fun op => op.date) = Except.ok rates)
    (hdig : digestOne reg snap oracle m a = Except.ok (some b)) :
    b.balance = a.balance +
      roundHalfUp (qmul (cacc.balance : Rat) (getCTokenRate snap mc.ctoken)) ∧
    b.operations = mergeOps a.operations
      (remapOps a.id (cacc.operations.zip (rates.map (fun r => r.rate)))) ∧
    ∀ o ∈ remapOps a.id (cacc.operations.zip (rates.map (fun r => r.rate))),
      ∃ p ∈ cacc.operations.zip (rates.map (fun r => r.rate)),
        o.value = roundHalfUp (qmul (p.1.value : Rat) p.2) := by
  have hch := @digestOne_merge reg snap oracle m a mc cacc rates hcf hl hca hf
  rw [hch] at hdig
  cases hdig
  refine ⟨rfl, rfl, ?_⟩
  intro o ho
  rcases remapOps_spec ho with ⟨p, hp, _, hval, _⟩
  exact ⟨p, hp, hval⟩

theorem digest_merge_rounding_witness :
    mergedW.balance =
      daiAccW.balance +
        roundHalfUp (qmul (cdaiAccW.balance : Rat) (getCTokenRate snapW pairW.ctoken)) :=
  (@digest_merge_rounding regW snapW oracleEmptyW mW daiAccW mergedW pairW cdaiAccW []
    rfl rfl rfl rfl (by decide)).1

/-- C5: for a merge with derivative balance D ≥ 0 and current rate R ≥ 0,
the merged balance is at least the original underlying balance. -/
theorem digest_merge_balance_ge {reg : Registry} {snap : Snapshot} {oracle : Oracle}
    {m : PairMap} {a b : TokenAccount} {mc : PairEntry} {cacc : TokenAccount}
    (hcf : a.token.compoundFor = none)
    (hl : lookupPair m a.token.id = some mc)
    (hca : mc.ctokenAccount = some cacc)
    (hdig : digestOne reg snap oracle m a = Except.ok (some b))
    (hD : 0 ≤ cacc.balance)
    (hR : 0 ≤ getCTokenRate snap mc.ctoken) :
    a.balance ≤ b.balance := by
  rcases digestOne_merge_exists hcf hl hca hdig with ⟨rates, _, rfl⟩
  have h0 : 0 ≤ qmul (cacc.balance : Rat) (getCTokenRate snap mc.ctoken) := by
    rw [qmul_eq_mul]
    apply mul_nonneg
    · exact_mod_cast hD
    · exact hR
  have h1 := roundHalfUp_nonneg h0
  show a.balance ≤ a.balance +
    roundHalfUp (qmul (cacc.balance : Rat) (getCTokenRate snap mc.ctoken))
  omega

theorem digest_merge_balance_ge_witness :
    daiAccW.balance ≤ mergedW.balance :=
  @digest_merge_balance_ge regW snapW oracleEmptyW mW daiAccW mergedW pairW cdaiAccW
    rfl rfl rfl (by decide) (by decide) (by decide)

/-- C6: every operation surviving the remap has type SUPPLY (from an IN
operation) or REDEEM (from an OUT operation); and the merged operation
list only contains original operations and remapped ones, so no remapped
operation of any other type appears in merged output. -/
theorem remap_type_closure (aId : String) (prs : List (Operation × Rat)) :
    (∀ o ∈ remapOps aId prs, (o.type = "SUPPLY" ∨ o.type = "REDEEM") ∧
      ∃ p ∈ prs, ((p.1.type = "IN" ∧ o.type = "SUPPLY") ∨
        (p.1.type = "OUT" ∧ o.type = "REDEEM"))) ∧
    (∀ (existing : List Operation) (o : Operation),
      o ∈ mergeOps existing (remapOps aId prs) →
      o ∈ existing ∨ o ∈ remapOps aId prs) := by
  constructor
  · intro o ho
    rcases remapOps_spec ho with ⟨p, hp, hmap, _⟩
    rcases cdaiToDaiOpMapping_eq_some hmap with ⟨h1, h2⟩ | ⟨h1, h2⟩
    · exact ⟨Or.inl h2, ⟨p, hp, Or.inl ⟨h1, h2⟩⟩⟩
    · exact ⟨Or.inr h2, ⟨p, hp, Or.inr ⟨h1, h2⟩⟩⟩
  · intro existing o ho
    exact mem_mergeOps ho

theorem remap_type_closure_witness :
    oSupW.type = "SUPPLY" ∨ oSupW.type = "REDEEM" :=
  ((remap_type_closure "dacc" prsW).1 oSupW (by decide)).1

/-- C7: when every inferred pair that has an underlying account also has a
derivative account, no placeholder is needed and prepareTokenAccounts
returns the input list itself (reference identity in the source, equality
in the model). -/
theorem prepareTokenAccounts_noop (env : Env) (reg : Registry)
    (currency : CryptoCurrency) (subAccounts : List TokenAccount) (m : PairMap)
    (hinf : inferSubAccountsCompound reg subAccounts = Except.ok m)
    (hall : ∀ p ∈ m, p.2.tokenAccount.isSome → p.2.ctokenAccount.isSome) :
    prepareTokenAccounts env reg currency subAccounts = Except.ok subAccounts := by
  unfold prepareTokenAccounts
  by_cases hg : (currency.id != "ethereum" || !env.compound) = true
  · rw [if_pos hg]
  · rw [if_neg hg]
    simp only [hinf]
    have hnil : (m.filterMap fun p =>
        if p.2.tokenAccount.isSome && p.2.ctokenAccount.isNone then
          some (placeholderAccount env.now p.2.ctoken)
        else none) = [] := by
      rw [List.filterMap_eq_nil_iff]
      intro p hp
      by_cases h1 : p.2.tokenAccount.isSome = true
      · rcases Option.isSome_iff_exists.mp (hall p hp h1) with ⟨v, hv⟩
        simp [h1, hv]
      · have h1' : p.2.tokenAccount.isSome = false := by
          cases hx : p.2.tokenAccount.isSome
          · rfl
          · exact absurd hx h1
        simp [h1']
    rw [hnil]
    rfl

theorem prepareTokenAccounts_noop_witness :
    prepareTokenAccounts envOn regW ethCur [daiAccW, cdaiAccW] =
      Except.ok [daiAccW, cdaiAccW] :=
  prepareTokenAccounts_noop envOn regW ethCur [daiAccW, cdaiAccW] mW
    (by decide) (by decide)

/-- C8: the merged account's spendableBalance equals the original
underlying account's pre-merge balance (not its pre-merge spendableBalance,
and not increased by the converted derivative amount). -/
theorem digest_merge_spendable {reg : Registry} {snap : Snapshot} {oracle : Oracle}
    {m : PairMap} {a b : TokenAccount} {mc : PairEntry} {cacc : TokenAccount}
    (hcf : a.token.compoundFor = none)
    (hl : lookupPair m a.token.id = some mc)
    (hca : mc.ctokenAccount = some cacc)
    (hdig : digestOne reg snap oracle m a = Except.ok (some b)) :
    b.spendableBalance = a.balance := by
  rcases digestOne_merge_exists hcf hl hca hdig with ⟨rates, _, rfl⟩
  rfl

theorem digest_merge_spendable_witness :
    mergedW.spendableBalance = daiAccW.balance :=
  @digest_merge_spendable regW snapW oracleEmptyW mW daiAccW mergedW pairW cdaiAccW
    rfl rfl rfl (by decide)

/-- C9: getCTokenRate returns the snapshot rate for the token id, or 0 when
the id is absent; getCTokenSupplyAPY returns the stored APY string, or the
empty string when absent; both are total functions. -/
theorem getCTokenRate_supplyAPY_total (snap : Snapshot) (ctoken : TokenCurrency) :
    (snap.find? (fun p => p.1 == ctoken.id) = none →
      getCTokenRate snap ctoken = 0 ∧ getCTokenSupplyAPY snap ctoken = "") ∧
    ∀ p, snap.find? (fun p0 => p0.1 == ctoken.id) = some p →
      getCTokenRate snap ctoken = p.2.rate ∧
      getCTokenSupplyAPY snap ctoken = p.2.supplyAPY := by
  constructor
  · intro h
    unfold getCTokenRate getCTokenSupplyAPY
    rw [h]
    exact ⟨rfl, rfl⟩
  · intro p h
    unfold getCTokenRate getCTokenSupplyAPY
    rw [h]
    exact ⟨rfl, rfl⟩

theorem getCTokenRate_supplyAPY_total_witness :
    getCTokenRate ([] : Snapshot) cdaiTok = 0 ∧ getCTokenRate snapW cdaiTok = 2 :=
  ⟨((getCTokenRate_supplyAPY_total [] cdaiTok).1 rfl).1,
    ((getCTokenRate_supplyAPY_total snapW cdaiTok).2
      ("cdai", { rate := 2, supplyAPY := "1.23%" }) (by decide)).1⟩

/-- C10: for a non-ethereum base currency or with the COMPOUND flag off,
both entry points return the input list unchanged, regardless of registry,
snapshot and oracle. -/
theorem prepare_digest_pass_through (env : Env) (reg : Registry) (snap : Snapshot)
    (oracle : Oracle) (currency : CryptoCurrency) (subAccounts : List TokenAccount)
    (h : currency.id ≠ "ethereum" ∨ env.compound = false) :
    prepareTokenAccounts env reg currency subAccounts = Except.ok subAccounts ∧
    digestTokenAccounts env reg snap oracle currency subAccounts =
      Except.ok subAccounts := by
  have hg := guard_true_of h
  constructor
  · unfold prepareTokenAccounts
    rw [if_pos hg]
  · unfold digestTokenAccounts
    rw [if_pos hg]

theorem prepare_digest_pass_through_witness :
    prepareTokenAccounts envOn regW btcCur [daiAccW] = Except.ok [daiAccW] ∧
    digestTokenAccounts envOn regW snapW oracleFailW btcCur [daiAccW] =
      Except.ok [daiAccW] :=
  prepare_digest_pass_through envOn regW snapW oracleFailW btcCur [daiAccW]
    (Or.inl (by decide))

theorem filterMap_id_map_some {A : Type} (l : List A) :
    (l.map some).filterMap id = l := by simp

theorem pairMapSound_nil (reg : Registry) (x : List TokenAccount) :
    PairMapSound reg x [] := by
  intro k e hk
  simp [lookupPair] at hk

/-- C4: digesting an already-digested list a second time, with the same
registry, snapshot and oracle, returns it unchanged: every derivative
account of a merged pair disappeared in the first pass, so the second pass
finds no pair with a derivative account and passes every account through
(and performs no oracle call). -/
theorem digestTokenAccounts_idempotent (env : Env) (reg : Registry) (snap : Snapshot)
    (oracle : Oracle) (currency : CryptoCurrency) (x y : List TokenAccount)
    (h : digestTokenAccounts env reg snap oracle currency x = Except.ok y) :
    digestTokenAccounts env reg snap oracle currency y = Except.ok y := by
  unfold digestTokenAccounts at h ⊢
  by_cases hg : (currency.id != "ethereum" || !env.compound) = true
  · rw [if_pos hg]
  · rw [if_neg hg] at h ⊢
    cases hinf : inferSubAccountsCompound reg x with
    | error e =>
      simp only [hinf] at h
      cases h
    | ok m =>
      simp only [hinf] at h
      by_cases hemp : m.isEmpty = true
      · rw [if_pos hemp] at h
        cases h
        simp only [hinf]
        rw [if_pos hemp]
      · rw [if_neg hemp] at h
        cases hmap : mapExcept (digestOne reg snap oracle m) x with
        | error e =>
          simp only [hmap] at h
          cases h
        | ok all =>
          simp only [hmap] at h
          cases h
          have hmem : ∀ b ∈ all.filterMap id, ∃ a ∈ x,
              digestOne reg snap oracle m a = Except.ok (some b) := by
            intro b hb
            rcases List.mem_filterMap.mp hb with ⟨o, ho, hid⟩
            have ho' : o = some b := hid
            rw [ho'] at ho
            rcases mapExcept_ok_mem _ x all hmap (some b) ho with ⟨a, ha, hda⟩
            exact ⟨a, ha, hda⟩
          have htok : ∀ b ∈ all.filterMap id, ∃ a ∈ x, b.token = a.token := by
            intro b hb
            rcases hmem b hb with ⟨a, ha, hda⟩
            exact ⟨a, ha, digestOne_token_eq hda⟩
          have hderiv : ∀ b ∈ all.filterMap id, ∀ cf, b.token.compoundFor = some cf →
              lookupPair m cf = none ∧ b ∈ x := by
            intro b hb cf hcf
            rcases hmem b hb with ⟨a, ha, hda⟩
            have htk := digestOne_token_eq hda
            have hacf : a.token.compoundFor = some cf := by
              rw [← htk]
              exact hcf
            rcases digestOne_derivative hda hacf with ⟨hnone, rfl⟩
            exact ⟨hnone, ha⟩
          have hnoct : ∀ ct ∈ reg.ethTokens, ∀ cf, ct.compoundFor = some cf →
              (all.filterMap id).find? (fun a => a.token == ct) = none := by
            intro ct hct cf hcf
            cases hfind : (all.filterMap id).find? (fun a => a.token == ct) with
            | none => rfl
            | some b =>
              exfalso
              have hbmem : b ∈ all.filterMap id := List.mem_of_find?_eq_some hfind
              have hbtok : b.token = ct := by
                have hpr := List.find?_some hfind
                simpa using hpr
              have hbcf : b.token.compoundFor = some cf := by
                rw [hbtok, hcf]
              rcases hderiv b hbmem cf hbcf with ⟨hnone, hbx⟩
              have hxfind : ((x.find? fun a => a.token == ct)).isSome :=
                List.find?_isSome.mpr ⟨b, hbx, by simp [hbtok]⟩
              have hms := inferAux_complete reg x reg.ethTokens [] m hinf
                ct hct cf hcf (Or.inr hxfind)
              rw [hnone] at hms
              cases hms
          have hgt : ∀ ct ∈ reg.ethTokens, ∀ cf, ct.compoundFor = some cf →
              (((all.filterMap id).find? (fun a => a.token.id == cf)).isSome ∨
                ((all.filterMap id).find? (fun a => a.token == ct)).isSome) →
              ∃ t, getTokenById reg cf = Except.ok t := by
            intro ct hct cf hcf hor
            rcases hor with hs | hs
            · rcases Option.isSome_iff_exists.mp hs with ⟨b, hb⟩
              have hbmem := List.mem_of_find?_eq_some hb
              have hbid : b.token.id = cf := by
                have hpr := List.find?_some hb
                simpa using hpr
              rcases htok b hbmem with ⟨a, ha, hab⟩
              have hxfind : ((x.find? fun a0 => a0.token.id == cf)).isSome :=
                List.find?_isSome.mpr ⟨a, ha, by simp [← hab, hbid]⟩
              exact inferAux_getTok reg x reg.ethTokens [] m hinf ct hct cf hcf
                (Or.inl hxfind)
            · rw [hnoct ct hct cf hcf] at hs
              cases hs
          rcases inferAux_ok_exists reg (all.filterMap id) reg.ethTokens [] hgt with
            ⟨m2, hinf2⟩
          have hinf2' : inferSubAccountsCompound reg (all.filterMap id) =
              Except.ok m2 := hinf2
          have hsound2 : PairMapSound reg (all.filterMap id) m2 :=
            inferAux_sound reg (all.filterMap id) reg.ethTokens [] m2
              (fun ct hct => hct) (pairMapSound_nil reg (all.filterMap id)) hinf2
          have hm2none : ∀ k e, lookupPair m2 k = some e → e.ctokenAccount = none := by
            intro k e hk
            rcases hsound2 k e hk with ⟨hct, hcf, _, hcta, _, _⟩
            rw [hcta]
            exact hnoct e.ctoken hct k hcf
          have hall2 : ∀ b ∈ all.filterMap id,
              digestOne reg snap oracle m2 b = Except.ok (some b) := by
            intro b hb
            cases hbcf : b.token.compoundFor with
            | none =>
              cases hl : lookupPair m2 b.token.id with
              | none => exact digestOne_pass_plain hbcf (Or.inl hl)
              | some e =>
                exact digestOne_pass_plain hbcf (Or.inr ⟨e, hl, hm2none _ _ hl⟩)
            | some cf =>
              have hl : lookupPair m2 cf = none := by
                cases hl : lookupPair m2 cf with
                | none => rfl
                | some e2 =>
                  exfalso
                  rcases hsound2 cf e2 hl with ⟨hct2, hcf2, hta2, _, hor2, _⟩
                  have hcta2 : e2.ctokenAccount = none := hm2none cf e2 hl
                  rcases hor2 with hs | hs
                  · rw [hta2] at hs
                    rcases Option.isSome_iff_exists.mp hs with ⟨b2, hb2⟩
                    have hb2mem := List.mem_of_find?_eq_some hb2
                    have hb2id : b2.token.id = cf := by
                      have hpr := List.find?_some hb2
                      simpa using hpr
                    rcases htok b2 hb2mem with ⟨a2, ha2, hab2⟩
                    have hxfind : ((x.find? fun a0 => a0.token.id == cf)).isSome :=
                      List.find?_isSome.mpr ⟨a2, ha2, by simp [← hab2, hb2id]⟩
                    have hms := inferAux_complete reg x reg.ethTokens [] m hinf
                      e2.ctoken hct2 cf hcf2 (Or.inl hxfind)
                    rcases hderiv b hb cf hbcf with ⟨hnone, _⟩
                    rw [hnone] at hms
                    cases hms
                  · rw [hcta2] at hs
                    cases hs
              exact digestOne_pass_derivative hbcf hl
          simp only [hinf2']
          by_cases h2e : m2.isEmpty = true
          · rw [if_pos h2e]
          · rw [if_neg h2e]
            rw [mapExcept_ok_of_forall _ _ hall2]
            show Except.ok (((all.filterMap id).map some).filterMap id) =
              Except.ok (all.filterMap id)
            rw [filterMap_id_map_some]

theorem digestTokenAccounts_idempotent_witness :
    digestTokenAccounts envOn regW snapW oracleEmptyW ethCur [mergedW] =
      Except.ok [mergedW] :=
  digestTokenAccounts_idempotent envOn regW snapW oracleEmptyW ethCur
    [daiAccW, cdaiAccW] [mergedW] (by decide)

end Compound
